import Mathlib

/-!
Verification of `track_followers.py` (class `TwitterFollowerBot`).

The Python source is shallowly embedded as follows.

* Text is `List Char` (Python `str` for parsing purposes) or `String`
  (for message formatting); both carry the same character data.
* Python `float(text)` is modelled exactly on finite decimal literals
  (optional sign, digits, optional decimal point): the parsed value is kept
  as a pair `(m, d)` denoting the exact rational `m / 10 ^ d`.  Exotic float
  syntax (exponents, `inf`, `nan`, underscores) and IEEE-754 rounding are
  outside the model; the spec's own examples involve only exact decimals.
* Python `int(x)` on a number truncates toward zero (`pyTrunc`); on a string
  it accepts an optional sign followed by digits (`pyInt`).
* `str.upper()` is modelled on ASCII (`upperC`), `str.strip()` strips ASCII
  whitespace (`trimList`), both faithful for the character data scraped here.
* timestamps are integers (seconds); `timedelta(hours=24)` is `86400`,
  `timedelta(days=30)` is `2592000`; `total_seconds()/3600` is the exact
  rational `Rat.divInt _ 3600`.
* network responses are abstracted to the data the scraping code inspects:
  an HTTP status plus the already-extracted element texts; a fetch-level
  failure (timeout, connection error) is `none`.
-/

namespace TrackFollowers

/-- Numeric value of a list of ASCII digit characters, read left to right. -/
def digitsVal (l : List Char) : ℕ :=
  l.foldl (fun a c => 10 * a + (c.toNat - 48)) 0

/-- ASCII digit test (models Python `str.isdigit` / regex `\d` on ASCII). -/
def isDigitC (c : Char) : Bool := 48 ≤ c.toNat && c.toNat ≤ 57

/-- ASCII lowercase-letter test. -/
def isLowerC (c : Char) : Bool := 97 ≤ c.toNat && c.toNat ≤ 122

/-- ASCII uppercasing, models Python `str.upper()` on the scraped text. -/
def upperC (c : Char) : Char := if isLowerC c then Char.ofNat (c.toNat - 32) else c

/-- ASCII whitespace, models what Python `str.strip()` removes here. -/
def isWhitespaceC (c : Char) : Bool :=
  c.toNat = 32 || c.toNat = 9 || c.toNat = 10 || c.toNat = 13

/-- Python `text.strip()`. -/
def trimList (l : List Char) : List Char :=
  ((l.dropWhile isWhitespaceC).reverse.dropWhile isWhitespaceC).reverse

/-- Embeds `count_text.strip().upper().replace(',', '').replace(' ', '')`
(line 214 of the source); the two single-character replacements are one
filter. -/
def normalize (l : List Char) : List Char :=
  ((trimList l).map upperC).filter (fun c => c != ',' && c != ' ')

/-- Python `ch in text`. -/
def hasChar (l : List Char) (a : Char) : Bool := l.any (fun c => c == a)

/-- Digit-string reading used by `pyInt`: nonempty, all digits. -/
def digitsNat (l : List Char) : Option ℕ :=
  if !l.isEmpty && l.all isDigitC then some (digitsVal l) else none

/-- Python `int(text)` on an already-normalized string: optional sign then
digits (underscores are not modelled). -/
def pyInt (l : List Char) : Option ℤ :=
  if l.head? = some '+' then (digitsNat l.tail).map Int.ofNat
  else if l.head? = some '-' then (digitsNat l.tail).map (fun n => -Int.ofNat n)
  else (digitsNat l).map Int.ofNat

/-- Unsigned part of Python `float(text)`: digits, optional point, digits,
at least one digit overall.  Returns `(m, d)` meaning `m / 10 ^ d`. -/
def pyFloatCore (l : List Char) : Option (ℤ × ℕ) :=
  let ip := l.takeWhile isDigitC
  let rest := l.dropWhile isDigitC
  if rest.isEmpty then
    if ip.isEmpty then none else some (Int.ofNat (digitsVal ip), 0)
  else if rest.head? = some '.' then
    if rest.tail.all isDigitC && !(ip.isEmpty && rest.tail.isEmpty) then
      some (Int.ofNat (digitsVal ip * 10 ^ rest.tail.length + digitsVal rest.tail),
        rest.tail.length)
    else none
  else none

/-- Python `float(text)` on a finite decimal literal, exact value `m / 10^d`. -/
def pyFloat (l : List Char) : Option (ℤ × ℕ) :=
  if l.head? = some '+' then pyFloatCore l.tail
  else if l.head? = some '-' then (pyFloatCore l.tail).map (fun p => (-p.1, p.2))
  else pyFloatCore l

/-- The exact rational value denoted by a `pyFloat` result. -/
def decVal (m : ℤ) (d : ℕ) : ℚ := Rat.divInt m (10 ^ d)

/-- Python `int(x)` on a number: truncation toward zero. -/
def pyTrunc (q : ℚ) : ℤ := q.num.tdiv q.den

/-- Embeds `TwitterFollowerBot.parse_count` (source lines 209-229). -/
def parse_count (l : List Char) : Option ℤ :=
  if l.isEmpty then none
  else
    let t := normalize l
    if hasChar t 'K' then
      (pyFloat (t.filter (fun c => c != 'K'))).map
        (fun p => pyTrunc (Rat.divInt (p.1 * 1000) (10 ^ p.2)))
    else if hasChar t 'M' then
      (pyFloat (t.filter (fun c => c != 'M'))).map
        (fun p => pyTrunc (Rat.divInt (p.1 * 1000000) (10 ^ p.2)))
    else if hasChar t 'B' then
      (pyFloat (t.filter (fun c => c != 'B'))).map
        (fun p => pyTrunc (Rat.divInt (p.1 * 1000000000) (10 ^ p.2)))
    else pyInt t

/-! ## History store and change calculator -/

/-- One persisted sample: `{'timestamp': ..., 'followers_count': ...}`
with the ISO timestamp modelled as seconds. -/
structure Record where
  timestamp : ℤ
  followers_count : ℤ
  deriving DecidableEq

/-- The loop of `calculate_change` (source lines 263-272): keep the record
whose timestamp is strictly closer to the target than the best so far, so
the earliest of equally-close records wins. -/
def findClosest (target : ℤ) (history : List Record) : Option Record :=
  history.foldl
    (fun acc r =>
      match acc with
      | none => some r
      | some best =>
          if |r.timestamp - target| < |best.timestamp - target| then some r else some best)
    none

/-- Embeds `TwitterFollowerBot.calculate_change` (source lines 255-279), with `now`
passed explicitly instead of read from the clock.  Returns
`(change, hours_ago, previous_count)` or `none` for the all-`None` triple. -/
def calculate_change (current_count : ℤ) (history : List Record) (now : ℤ) :
    Option (ℤ × ℚ × ℤ) :=
  if history.isEmpty then none
  else
    match findClosest (now - 86400) history with
    | some r =>
        some (current_count - r.followers_count,
              Rat.divInt (now - r.timestamp) 3600,
              r.followers_count)
    | none => none

/-- The retention filter inside `run` (source lines 371-376): keep a record
iff its timestamp is strictly later than `now` minus 30 days. -/
def prune (history : List Record) (now : ℤ) : List Record :=
  history.filter (fun r => now - 2592000 < r.timestamp)

/-! ## Source adapters

The fetched HTML document is abstracted to the element data the code
inspects: for Nitter, the `profile-stat-num` span texts together with
whether the span's parent text mentions "followers", the strings matched
by the follower regex, and the `profile-stat` divs; for Social Blade, the
bold-element and bold-styled-span texts.  A fetch-level error is `none`;
a non-200 status is recorded in `status`. -/

structure NitterStat where
  text : List Char
  parent_followers : Bool
  deriving DecidableEq

structure NitterDiv where
  has_follower : Bool
  num_span : Option (List Char)
  deriving DecidableEq

structure NitterDoc where
  status : ℕ
  stats : List NitterStat
  follower_texts : List (List Char)
  stat_divs : List NitterDiv
  deriving DecidableEq

structure SBDoc where
  status : ℕ
  bold_texts : List (List Char)
  span_texts : List (List Char)
  deriving DecidableEq

/-- Embeds `count and count > 1000` (source lines 120, 133, 144): Python truthiness
of the parsed count conjoined with the structural plausibility bound. -/
def nitter_check (c : ℤ) : Bool := c != 0 && 1000 < c

/-- Method 1 of `try_nitter_instance` applied to one stat span
(source lines 117-125). -/
def nitter_stat_candidate (s : NitterStat) : Option ℤ :=
  match parse_count (trimList s.text) with
  | some c => if nitter_check c && s.parent_followers then some c else none
  | none => none

/-- Character class of the regex `[\d,KM.]`. -/
def candChar (c : Char) : Bool := isDigitC c || c == ',' || c == 'K' || c == 'M' || c == '.'

/-- Embeds `re.search(r'([\d,KM.]+)', element)`: leftmost maximal run of the class. -/
def firstRun (l : List Char) : Option (List Char) :=
  let r := l.dropWhile (fun c => !candChar c)
  if r.isEmpty then none else some (r.takeWhile candChar)

/-- Method 2 of `try_nitter_instance` applied to one matched string
(source lines 129-135). -/
def nitter_text_candidate (t : List Char) : Option ℤ :=
  match firstRun t with
  | none => none
  | some m =>
      match parse_count m with
      | some c => if nitter_check c then some c else none
      | none => none

/-- Method 3 of `try_nitter_instance` applied to one `profile-stat` div
(source lines 139-146). -/
def nitter_div_candidate (d : NitterDiv) : Option ℤ :=
  if d.has_follower then
    match d.num_span with
    | some t =>
        match parse_count (trimList t) with
        | some c => if nitter_check c then some c else none
        | none => none
    | none => none
  else none

/-- Embeds `TwitterFollowerBot.try_nitter_instance` (source lines 99-159): on a
successful fetch, method 1 (guarded by having at least two stat spans),
then method 2, then method 3, each returning on its first accepted
candidate. -/
def try_nitter_instance : Option NitterDoc → Option ℤ
  | none => none
  | some d =>
      if d.status ≠ 200 then none
      else
        match (if 2 ≤ d.stats.length then d.stats.findSome? nitter_stat_candidate else none) with
        | some c => some c
        | none =>
            match d.follower_texts.findSome? nitter_text_candidate with
            | some c => some c
            | none => d.stat_divs.findSome? nitter_div_candidate

/-- The regex `^\d{1,3}(,\d{3})*$` after the first digit group. -/
def groupsTail : List Char → Bool
  | [] => true
  | ',' :: a :: b :: c :: rest => isDigitC a && isDigitC b && isDigitC c && groupsTail rest
  | _ => false

/-- Embeds `re.match(r'^\d{1,3}(,\d{3})*$', text)` as a Boolean test. -/
def sb_grouped (l : List Char) : Bool :=
  let d := l.takeWhile isDigitC
  decide (1 ≤ d.length) && decide (d.length ≤ 3) && groupsTail (l.dropWhile isDigitC)

/-- Embeds `1000 <= num <= 500000000` (source lines 184 and 193). -/
def sb_range_ok (n : ℕ) : Bool := 1000 ≤ n && n ≤ 500000000

/-- One Social Blade element: stripped text must match the grouped-number
regex, then `int(text.replace(',', ''))` must lie in the plausible range
(source lines 181-185 and 190-194). -/
def sb_candidate (t : List Char) : Option ℤ :=
  if sb_grouped (trimList t) then
    if sb_range_ok (digitsVal ((trimList t).filter (fun c => c != ','))) then
      some (Int.ofNat (digitsVal ((trimList t).filter (fun c => c != ','))))
    else none
  else none

/-- The `potential_numbers` list of `try_social_blade`: all plausible
candidates in scan order (bold elements, then bold-styled spans). -/
def sb_candidates (d : SBDoc) : List ℤ :=
  d.bold_texts.filterMap sb_candidate ++ d.span_texts.filterMap sb_candidate

/-- Embeds `TwitterFollowerBot.try_social_blade` (source lines 161-207): collects
every plausible candidate and returns `max(potential_numbers)`. -/
def try_social_blade : Option SBDoc → Option ℤ
  | none => none
  | some d =>
      if d.status ≠ 200 then none
      else
        match sb_candidates d with
        | [] => none
        | x :: xs => some (xs.foldl max x)

/-! ## Acquirer -/

/-- The fallback loop of `get_follower_count` (source lines 86-97) over the
ordered adapter outcomes, also counting how many adapters were invoked.
`if count:` is Python truthiness, so a zero count is treated as a miss. -/
def acquire_trace : List (Option ℤ) → Option ℤ × ℕ
  | [] => (none, 0)
  | o :: rest =>
      match o with
      | some c =>
          if c ≠ 0 then (some c, 1)
          else ((acquire_trace rest).1, (acquire_trace rest).2 + 1)
      | none => ((acquire_trace rest).1, (acquire_trace rest).2 + 1)

/-- Embeds `TwitterFollowerBot.get_follower_count` (source lines 70-97): the Nitter
instances in list order, then Social Blade. -/
def get_follower_count (nitters : List (Option NitterDoc)) (sb : Option SBDoc) : Option ℤ :=
  (acquire_trace ((nitters.map try_nitter_instance) ++ [try_social_blade sb])).1

/-! ## Number rendering (Python `f"{n:,}"` and `f"{x:.0f}"`) -/

/-- The digit character for `n < 10`. -/
def digitChar (n : ℕ) : Char := Char.ofNat (48 + n)

/-- Decimal digits of `n`, most significant first; fuel-based so that it
reduces in the kernel (`fuel` bounds the recursion depth, `n` itself is
always enough). -/
def toDigitsAux : ℕ → ℕ → List Char → List Char
  | 0, n, acc => digitChar n :: acc
  | fuel + 1, n, acc =>
      if n < 10 then digitChar n :: acc
      else toDigitsAux fuel (n / 10) (digitChar (n % 10) :: acc)

/-- Decimal digit characters of a natural number. -/
def natChars (n : ℕ) : List Char := toDigitsAux n n []

/-- Pad a 1- or 2-digit group to 3 digits with leading zeros. -/
def pad3 (l : List Char) : List Char :=
  if l.length = 1 then '0' :: '0' :: l else if l.length = 2 then '0' :: l else l

/-- Comma-grouped decimal rendering of a natural number, fuel-based. -/
def commaNatAux : ℕ → ℕ → List Char
  | 0, n => natChars n
  | fuel + 1, n =>
      if n < 1000 then natChars n
      else commaNatAux fuel (n / 1000) ++ ',' :: pad3 (natChars (n % 1000))

/-- Python `f"{n:,}"` for a natural number: thousands groups separated by
commas. -/
def commaNat (n : ℕ) : List Char := commaNatAux n n

/-- Python `f"{i:,}"` for an integer. -/
def intComma (i : ℤ) : String :=
  if i < 0 then String.mk ('-' :: commaNat i.natAbs) else String.mk (commaNat i.natAbs)

/-- Round to the nearest integer, ties to even — the IEEE rule behind
Python's `f"{x:.0f}"` — computed from the numerator and denominator. -/
def roundHalfEven (q : ℚ) : ℤ :=
  let f := q.floor
  let r := q.num - f * (q.den : ℤ)
  if 2 * r < (q.den : ℤ) then f
  else if (q.den : ℤ) < 2 * r then f + 1
  else if f % 2 = 0 then f else f + 1

/-- Python `f"{x:.0f}"` (the `-0` corner of negative fractions is not
modelled). -/
def fmtF0 (q : ℚ) : String :=
  let i := roundHalfEven q
  if i < 0 then String.mk ('-' :: natChars i.natAbs) else String.mk (natChars i.natAbs)

/-! ## Message formatter -/

/-- The long template of `format_tweet` (source lines 305-308). -/
def format_tweet_full (username : String) (current_count change : ℤ) (hours_ago : ℚ) : String :=
  let current_formatted := intComma current_count
  let change_formatted := intComma |change|
  let emoji := if 0 < change then "📈" else if change < 0 then "📉" else "➡️"
  let change_text :=
    if 0 < change then "+" ++ change_formatted
    else if change < 0 then "-" ++ change_formatted else "0"
  let verb := if 0 < change then "gained" else if change < 0 then "lost" else "no change"
  emoji ++ " @" ++ username ++ " " ++ verb ++ " " ++ change_text ++ " followers in ~" ++
    fmtF0 hours_ago ++ "h\n\n📊 Current: " ++ current_formatted ++ "\n📈 Change: " ++
    change_text ++ "\n\n#FollowerTracker"

/-- The fallback short template of `format_tweet` (source lines 313-315). -/
def format_tweet_short (username : String) (current_count change : ℤ) : String :=
  let current_formatted := intComma current_count
  let change_formatted := intComma |change|
  let emoji := if 0 < change then "📈" else if change < 0 then "📉" else "➡️"
  let change_text :=
    if 0 < change then "+" ++ change_formatted
    else if change < 0 then "-" ++ change_formatted else "0"
  let verb := if 0 < change then "gained" else if change < 0 then "lost" else "no change"
  emoji ++ " @" ++ username ++ " " ++ verb ++ " " ++ change_text ++ " followers\n\n" ++
    current_formatted ++ " (" ++ change_text ++ ")\n\n#FollowerTracker"

/-- Embeds `TwitterFollowerBot.format_tweet` (source lines 281-317). `change = none`
models the all-`None` triple from `calculate_change`; `hours_ago` and
`previous_count` are unused in that branch, and `previous_count` is unused
throughout, exactly as in the source. -/
def format_tweet (username : String) (current_count : ℤ) (change : Option ℤ)
    (hours_ago : ℚ) (previous_count : ℤ) : String :=
  have _ := previous_count
  match change with
  | none =>
      "📊 @" ++ username ++ " currently has " ++ intComma current_count ++
        " followers.\n\n(First tracking)\n\n#FollowerTracker"
  | some ch =>
      let tweet := format_tweet_full username current_count ch hours_ago
      if 280 < tweet.length then format_tweet_short username current_count ch else tweet

/-! ## Main run -/

/-- Observable side effects of one `run`, in order of occurrence. -/
inductive RunEvent
  | save : List Record → RunEvent
  | publish : String → RunEvent
  deriving DecidableEq

/-- Embeds `TwitterFollowerBot.run` (source lines 340-406) for the tracked handle,
parameterized by the adapter responses, the loaded history for that handle,
the clock, and the outcome of `post_tweet` (`false` also covers a missing
API client).  Returns the reported success together with the ordered
side-effect trace (history save, tweet publication). -/
def run (nitters : List (Option NitterDoc)) (sb : Option SBDoc)
    (history : List Record) (now : ℤ) (publish_ok : Bool) (username : String) :
    Bool × List RunEvent :=
  match get_follower_count nitters sb with
  | none => (false, [])
  | some c =>
      if c = 0 then (false, [])
      else
        let res := calculate_change c history now
        let new_history := prune (history ++ [⟨now, c⟩]) now
        let msg :=
          match res with
          | none => format_tweet username c none 0 0
          | some (ch, h, prev) => format_tweet username c (some ch) h prev
        (publish_ok, [RunEvent.save new_history, RunEvent.publish msg])

/-! ## Derived notions used only in statements -/

/-- All candidates `try_nitter_instance` would accept, in the scan order of
its three methods. -/
def nitter_candidates (d : NitterDoc) : List ℤ :=
  (if 2 ≤ d.stats.length then d.stats.filterMap nitter_stat_candidate else []) ++
    d.follower_texts.filterMap nitter_text_candidate ++
    d.stat_divs.filterMap nitter_div_candidate

/-- A character allowed in the numeric prefix before a K/M/B unit letter:
a digit, decimal point, or sign. -/
def cleanNumChar (c : Char) : Prop := isDigitC c = true ∨ c = '.' ∨ c = '+' ∨ c = '-'

instance cleanNumChar_dec (c : Char) : Decidable (cleanNumChar c) := by
  unfold cleanNumChar
  infer_instance

/-- Does `pat` occur at the front of `l`? -/
def listStarts : List Char → List Char → Bool
  | [], _ => true
  | _ :: _, [] => false
  | p :: ps, c :: cs => p == c && listStarts ps cs

/-- Does `pat` occur anywhere in `l`? -/
def listHas (pat : List Char) : List Char → Bool
  | [] => listStarts pat []
  | c :: cs => listStarts pat (c :: cs) || listHas pat cs

/-- Substring test on strings (`pat` occurs in `s`). -/
def hasSub (s pat : String) : Bool := listHas pat.data s.data

/-! ## Character lemmas -/

theorem upperC_of_not_lower {c : Char} (h : isLowerC c = false) : upperC c = c := by
  simp [upperC, h]

theorem isLowerC_false_of_digit {c : Char} (h : isDigitC c = true) : isLowerC c = false := by
  simp [isDigitC] at h
  simp [isLowerC]
  omega

theorem upperC_digit {c : Char} (h : isDigitC c = true) : upperC c = c :=
  upperC_of_not_lower (isLowerC_false_of_digit h)

theorem isDigitC_of_upperC {c : Char} (h : isDigitC (upperC c) = true) : isDigitC c = true := by
  by_cases hl : isLowerC c = true
  · exfalso
    rw [upperC, if_pos hl] at h
    simp only [isLowerC, Bool.and_eq_true, decide_eq_true_eq] at hl
    obtain ⟨h1, h2⟩ := hl
    set n := c.toNat with hn
    interval_cases n <;> revert h <;> decide
  · rwa [upperC_of_not_lower (by simpa using hl)] at h

theorem not_ws_of_digit {c : Char} (h : isDigitC c = true) : isWhitespaceC c = false := by
  simp [isDigitC] at h
  simp [isWhitespaceC]
  omega

theorem digit_toNat_bounds {c : Char} (h : isDigitC c = true) :
    48 ≤ c.toNat ∧ c.toNat ≤ 57 := by
  simpa [isDigitC] using h

theorem digit_ne {c : Char} (h : isDigitC c = true) {a : Char}
    (ha : a.toNat < 48 ∨ 57 < a.toNat) : c ≠ a := by
  rintro rfl
  have := digit_toNat_bounds h
  omega

/-! ## List lemmas -/

theorem dropWhile_eq_self {p : Char → Bool} {l : List Char}
    (h : ∀ c ∈ l, p c = false) : l.dropWhile p = l := by
  cases l with
  | nil => rfl
  | cons c r => simp [List.dropWhile_cons, h c (by simp)]

theorem trimList_eq_self {l : List Char}
    (h : ∀ c ∈ l, isWhitespaceC c = false) : trimList l = l := by
  unfold trimList
  rw [dropWhile_eq_self h, dropWhile_eq_self (fun c hc => h c (List.mem_reverse.mp hc)),
    List.reverse_reverse]

theorem map_eq_self {f : Char → Char} {l : List Char}
    (h : ∀ a ∈ l, f a = a) : l.map f = l := by
  conv_rhs => rw [← List.map_id l]
  exact List.map_congr_left h

theorem normalize_of_plain {l : List Char}
    (hws : ∀ c ∈ l, isWhitespaceC c = false) (hlo : ∀ c ∈ l, isLowerC c = false) :
    normalize l = l.filter (fun c => c != ',' && c != ' ') := by
  unfold normalize
  rw [trimList_eq_self hws, map_eq_self (fun a ha => upperC_of_not_lower (hlo a ha))]

theorem hasChar_iff {l : List Char} {a : Char} : hasChar l a = true ↔ a ∈ l := by
  simp only [hasChar, List.any_eq_true, beq_iff_eq]
  constructor
  · rintro ⟨c, hc, rfl⟩
    exact hc
  · intro h
    exact ⟨a, h, rfl⟩

theorem hasChar_eq_false {l : List Char} {a : Char}
    (h : ∀ c ∈ l, c ≠ a) : hasChar l a = false := by
  rw [← Bool.not_eq_true, hasChar_iff]
  intro hm
  exact h a hm rfl

theorem mem_of_mem_trimList {l : List Char} {c : Char} (h : c ∈ trimList l) : c ∈ l := by
  unfold trimList at h
  rw [List.mem_reverse] at h
  have h1 := (List.dropWhile_sublist (l := (l.dropWhile isWhitespaceC).reverse)
    (p := isWhitespaceC)).subset h
  rw [List.mem_reverse] at h1
  exact (List.dropWhile_sublist (l := l) (p := isWhitespaceC)).subset h1

theorem mem_of_mem_normalize {l : List Char} {c : Char} (h : c ∈ normalize l) :
    ∃ b ∈ l, c = upperC b := by
  unfold normalize at h
  have h1 := List.mem_of_mem_filter h
  obtain ⟨b, hb, rfl⟩ := List.mem_map.mp h1
  exact ⟨b, mem_of_mem_trimList hb, rfl⟩

/-! ## Digit-string lemmas -/

theorem foldl_digits_shift : ∀ (l : List Char) (a : ℕ),
    l.foldl (fun a c => 10 * a + (c.toNat - 48)) a = a * 10 ^ l.length + digitsVal l := by
  intro l
  induction l with
  | nil => intro a; simp [digitsVal]
  | cons c r ih =>
      intro a
      have hd : digitsVal (c :: r) =
          List.foldl (fun a c => 10 * a + (c.toNat - 48)) (10 * 0 + (c.toNat - 48)) r := rfl
      rw [List.foldl_cons, ih, hd, ih]
      simp only [List.length_cons]
      ring

theorem digitsVal_append (a b : List Char) :
    digitsVal (a ++ b) = digitsVal a * 10 ^ b.length + digitsVal b := by
  unfold digitsVal
  rw [List.foldl_append]
  exact foldl_digits_shift b _

theorem digitsVal_singleton (c : Char) : digitsVal [c] = c.toNat - 48 := by
  simp [digitsVal]

theorem digitChar_spec {n : ℕ} (h : n < 10) :
    isDigitC (digitChar n) = true ∧ (digitChar n).toNat - 48 = n := by
  interval_cases n <;> exact ⟨by decide, by decide⟩

theorem digit_keep {c : Char} (h : isDigitC c = true) : (c != ',' && c != ' ') = true := by
  have h1 : c ≠ ',' := digit_ne h (Or.inl (by decide))
  have h2 : c ≠ ' ' := digit_ne h (Or.inl (by decide))
  simp [h1, h2]

theorem toDigitsAux_spec : ∀ (fuel n : ℕ), n ≤ fuel → ∀ (acc : List Char),
    ∃ ds, toDigitsAux fuel n acc = ds ++ acc ∧ ds ≠ [] ∧
      (∀ c ∈ ds, isDigitC c = true) ∧ digitsVal ds = n ∧
      (∀ k, 1 ≤ k → n < 10 ^ k → ds.length ≤ k) := by
  intro fuel
  induction fuel with
  | zero =>
      intro n hn acc
      have hn0 : n = 0 := by omega
      subst hn0
      refine ⟨[digitChar 0], rfl, by simp, ?_, by decide, ?_⟩
      · intro c hc
        rw [List.mem_singleton] at hc
        subst hc
        exact (digitChar_spec (by norm_num)).1
      · intro k hk _
        simpa using hk
  | succ fuel ih =>
      intro n hn acc
      have hstep : toDigitsAux (fuel + 1) n acc
          = if n < 10 then digitChar n :: acc
            else toDigitsAux fuel (n / 10) (digitChar (n % 10) :: acc) := rfl
      by_cases h10 : n < 10
      · refine ⟨[digitChar n], ?_, by simp, ?_, ?_, ?_⟩
        · rw [hstep, if_pos h10]
          rfl
        · intro c hc
          rw [List.mem_singleton] at hc
          subst hc
          exact (digitChar_spec h10).1
        · rw [digitsVal_singleton, (digitChar_spec h10).2]
        · intro k hk _
          simpa using hk
      · have hrec : toDigitsAux (fuel + 1) n acc
            = toDigitsAux fuel (n / 10) (digitChar (n % 10) :: acc) := by
          rw [hstep, if_neg h10]
        have hdiv : n / 10 ≤ fuel := by
          have := Nat.div_lt_self (by omega : 0 < n) (by norm_num : 1 < 10)
          omega
        obtain ⟨ds, hds, hne, hdig, hval, hlen⟩ := ih (n / 10) hdiv (digitChar (n % 10) :: acc)
        have hmod : n % 10 < 10 := Nat.mod_lt _ (by norm_num)
        refine ⟨ds ++ [digitChar (n % 10)], ?_, by simp [hne], ?_, ?_, ?_⟩
        · rw [hrec, hds]
          simp
        · intro c hc
          rcases List.mem_append.mp hc with h | h
          · exact hdig c h
          · rw [List.mem_singleton] at h
            subst h
            exact (digitChar_spec hmod).1
        · rw [digitsVal_append, hval, digitsVal_singleton, (digitChar_spec hmod).2]
          simp only [List.length_singleton, pow_one]
          omega
        · intro k hk hnk
          have hk2 : 2 ≤ k := by
            rcases Nat.lt_or_ge k 2 with h | h
            · exfalso
              have hk1 : k = 1 := by omega
              subst hk1
              simp at hnk
              omega
            · exact h
          have hq : n / 10 < 10 ^ (k - 1) := by
            apply Nat.div_lt_of_lt_mul
            have hpow : (10 : ℕ) ^ k = 10 * 10 ^ (k - 1) := by
              rw [← pow_succ']
              congr 1
              omega
            rw [← hpow]
            exact hnk
          have hl := hlen (k - 1) (by omega) hq
          simp only [List.length_append, List.length_singleton]
          omega

theorem natChars_spec (n : ℕ) :
    natChars n ≠ [] ∧ (∀ c ∈ natChars n, isDigitC c = true) ∧ digitsVal (natChars n) = n ∧
      (∀ k, 1 ≤ k → n < 10 ^ k → (natChars n).length ≤ k) := by
  obtain ⟨ds, hds, hne, hdig, hval, hlen⟩ := toDigitsAux_spec n n le_rfl []
  rw [List.append_nil] at hds
  unfold natChars
  rw [hds]
  exact ⟨hne, hdig, hval, hlen⟩

theorem digitsVal_zero_cons (l : List Char) : digitsVal ('0' :: l) = digitsVal l := rfl

theorem pad3_spec {l : List Char} (hne : l ≠ []) (hlen : l.length ≤ 3)
    (hdig : ∀ c ∈ l, isDigitC c = true) :
    (pad3 l).length = 3 ∧ digitsVal (pad3 l) = digitsVal l ∧
      (∀ c ∈ pad3 l, isDigitC c = true) := by
  have h1 : 1 ≤ l.length := List.length_pos.mpr hne
  unfold pad3
  by_cases e1 : l.length = 1
  · rw [if_pos e1]
    refine ⟨by simp [e1], rfl, ?_⟩
    intro c hc
    simp only [List.mem_cons] at hc
    rcases hc with rfl | rfl | hc
    · decide
    · decide
    · exact hdig c hc
  · rw [if_neg e1]
    by_cases e2 : l.length = 2
    · rw [if_pos e2]
      refine ⟨by simp [e2], rfl, ?_⟩
      intro c hc
      simp only [List.mem_cons] at hc
      rcases hc with rfl | hc
      · decide
      · exact hdig c hc
    · rw [if_neg e2]
      exact ⟨by omega, rfl, hdig⟩

theorem commaNatAux_spec : ∀ (fuel n : ℕ), n ≤ fuel →
    (∀ c ∈ commaNatAux fuel n, isDigitC c = true ∨ c = ',') ∧
      (commaNatAux fuel n).filter (fun c => c != ',' && c != ' ') ≠ [] ∧
      (∀ c ∈ (commaNatAux fuel n).filter (fun c => c != ',' && c != ' '), isDigitC c = true) ∧
      digitsVal ((commaNatAux fuel n).filter (fun c => c != ',' && c != ' ')) = n := by
  have base : ∀ n : ℕ,
      (∀ c ∈ natChars n, isDigitC c = true ∨ c = ',') ∧
        (natChars n).filter (fun c => c != ',' && c != ' ') ≠ [] ∧
        (∀ c ∈ (natChars n).filter (fun c => c != ',' && c != ' '), isDigitC c = true) ∧
        digitsVal ((natChars n).filter (fun c => c != ',' && c != ' ')) = n := by
    intro n
    obtain ⟨hne, hdig, hval, _⟩ := natChars_spec n
    have hf : (natChars n).filter (fun c => c != ',' && c != ' ') = natChars n :=
      List.filter_eq_self.mpr (fun a ha => digit_keep (hdig a ha))
    rw [hf]
    exact ⟨fun c hc => Or.inl (hdig c hc), hne, hdig, hval⟩
  intro fuel
  induction fuel with
  | zero =>
      intro n hn
      have hn0 : n = 0 := by omega
      subst hn0
      exact base 0
  | succ fuel ih =>
      intro n hn
      have hstep : commaNatAux (fuel + 1) n
          = if n < 1000 then natChars n
            else commaNatAux fuel (n / 1000) ++ ',' :: pad3 (natChars (n % 1000)) := rfl
      by_cases h1000 : n < 1000
      · rw [hstep, if_pos h1000]
        exact base n
      · have hrec : commaNatAux (fuel + 1) n
            = commaNatAux fuel (n / 1000) ++ ',' :: pad3 (natChars (n % 1000)) := by
          rw [hstep, if_neg h1000]
        have hdiv : n / 1000 ≤ fuel := by
          have := Nat.div_lt_self (by omega : 0 < n) (by norm_num : 1 < 1000)
          omega
        obtain ⟨hclassA, hneA, hdigA, hvalA⟩ := ih (n / 1000) hdiv
        have hmod : n % 1000 < 1000 := Nat.mod_lt _ (by norm_num)
        obtain ⟨hneB, hdigB, hvalB, hlenB⟩ := natChars_spec (n % 1000)
        obtain ⟨hp3len, hp3val, hp3dig⟩ :=
          pad3_spec hneB (hlenB 3 (by norm_num) (by simpa using hmod)) hdigB
        have hfB : (pad3 (natChars (n % 1000))).filter (fun c => c != ',' && c != ' ')
            = pad3 (natChars (n % 1000)) :=
          List.filter_eq_self.mpr (fun a ha => digit_keep (hp3dig a ha))
        have hfilter :
            (commaNatAux fuel (n / 1000) ++ ',' :: pad3 (natChars (n % 1000))).filter
                (fun c => c != ',' && c != ' ')
              = (commaNatAux fuel (n / 1000)).filter (fun c => c != ',' && c != ' ')
                  ++ pad3 (natChars (n % 1000)) := by
          rw [List.filter_append, List.filter_cons, if_neg (by decide), hfB]
        rw [hrec, hfilter]
        refine ⟨?_, ?_, ?_, ?_⟩
        · intro c hc
          rcases List.mem_append.mp hc with h | h
          · exact hclassA c h
          · simp only [List.mem_cons] at h
            rcases h with rfl | h
            · exact Or.inr rfl
            · exact Or.inl (hp3dig c h)
        · intro hcon
          exact hneA (List.append_eq_nil.mp hcon).1
        · intro c hc
          rcases List.mem_append.mp hc with h | h
          · exact hdigA c h
          · exact hp3dig c h
        · rw [digitsVal_append, hvalA, hp3len, hp3val, hvalB]
          have hpow : (10 : ℕ) ^ 3 = 1000 := by norm_num
          rw [hpow]
          omega

theorem commaNat_props (n : ℕ) :
    (∀ c ∈ commaNat n, isDigitC c = true ∨ c = ',') ∧
      (commaNat n).filter (fun c => c != ',' && c != ' ') ≠ [] ∧
      (∀ c ∈ (commaNat n).filter (fun c => c != ',' && c != ' '), isDigitC c = true) ∧
      digitsVal ((commaNat n).filter (fun c => c != ',' && c != ' ')) = n :=
  commaNatAux_spec n n le_rfl

/-- Round trip used by several claims: the comma-grouped rendering of any
natural number parses back to it. -/
theorem parse_count_commaNat (n : ℕ) : parse_count (commaNat n) = some (n : ℤ) := by
  obtain ⟨hclass, hne, hdig, hval⟩ := commaNat_props n
  have hlne : commaNat n ≠ [] := by
    intro h
    rw [h] at hne
    exact hne rfl
  have hws : ∀ c ∈ commaNat n, isWhitespaceC c = false := by
    intro c hc
    rcases hclass c hc with h | h
    · exact not_ws_of_digit h
    · subst h
      decide
  have hlo : ∀ c ∈ commaNat n, isLowerC c = false := by
    intro c hc
    rcases hclass c hc with h | h
    · exact isLowerC_false_of_digit h
    · subst h
      decide
  have hnorm : normalize (commaNat n) = (commaNat n).filter (fun c => c != ',' && c != ' ') :=
    normalize_of_plain hws hlo
  have hnoK : hasChar (normalize (commaNat n)) 'K' = false := by
    rw [hnorm]
    exact hasChar_eq_false (fun c hc => digit_ne (hdig c hc) (Or.inr (by decide)))
  have hnoM : hasChar (normalize (commaNat n)) 'M' = false := by
    rw [hnorm]
    exact hasChar_eq_false (fun c hc => digit_ne (hdig c hc) (Or.inr (by decide)))
  have hnoB : hasChar (normalize (commaNat n)) 'B' = false := by
    rw [hnorm]
    exact hasChar_eq_false (fun c hc => digit_ne (hdig c hc) (Or.inr (by decide)))
  unfold parse_count
  rw [if_neg (by simpa [List.isEmpty_iff] using hlne)]
  simp only [hnoK, hnoM, hnoB, Bool.false_eq_true, if_false]
  rw [hnorm]
  rcases hcons : (commaNat n).filter (fun c => c != ',' && c != ' ') with _ | ⟨c, r⟩
  · exact absurd hcons hne
  · have hcd : isDigitC c = true := by
      apply hdig
      rw [hcons]
      simp
    have hcp : ¬((c :: r).head? = some '+') := by
      simp only [List.head?_cons, Option.some.injEq]
      exact digit_ne hcd (Or.inl (by decide))
    have hcm : ¬((c :: r).head? = some '-') := by
      simp only [List.head?_cons, Option.some.injEq]
      exact digit_ne hcd (Or.inl (by decide))
    unfold pyInt
    rw [if_neg hcp, if_neg hcm]
    have hall : (c :: r).all isDigitC = true := by
      rw [List.all_eq_true]
      intro x hx
      apply hdig
      rw [hcons]
      exact hx
    unfold digitsNat
    rw [if_pos (by simp [hall])]
    have hmap : Option.map Int.ofNat (some (digitsVal (c :: r)))
        = some (Int.ofNat (digitsVal (c :: r))) := rfl
    rw [hmap, ← hcons, hval, Int.ofNat_eq_natCast]

/-! ## Parse lemmas for C1 -/

theorem pyFloatCore_no_digit : ∀ {l : List Char},
    (∀ c ∈ l, isDigitC c = false) → pyFloatCore l = none := by
  intro l h
  cases l with
  | nil => rfl
  | cons c r =>
      have hc : isDigitC c = false := h c (by simp)
      unfold pyFloatCore
      simp only [List.takeWhile_cons, List.dropWhile_cons, hc, Bool.false_eq_true, if_false,
        List.isEmpty_cons, List.head?_cons, List.tail_cons]
      by_cases hdot : c = '.'
      · subst hdot
        rw [if_pos rfl]
        cases r with
        | nil => rfl
        | cons d s =>
            have hd : isDigitC d = false := h d (by simp)
            rw [if_neg]
            simp [List.all_cons, hd]
      · rw [if_neg (by simp [hdot])]

theorem pyFloat_no_digit {l : List Char}
    (h : ∀ c ∈ l, isDigitC c = false) : pyFloat l = none := by
  cases l with
  | nil => rfl
  | cons c r =>
      have hr : ∀ x ∈ r, isDigitC x = false := fun x hx => h x (by simp [hx])
      unfold pyFloat
      by_cases hp : c = '+'
      · subst hp
        rw [if_pos (by simp)]
        exact pyFloatCore_no_digit hr
      · rw [if_neg (by simp [hp])]
        by_cases hm : c = '-'
        · subst hm
          rw [if_pos (by simp)]
          simp only [List.tail_cons]
          rw [pyFloatCore_no_digit hr]
          rfl
        · rw [if_neg (by simp [hm])]
          exact pyFloatCore_no_digit h

theorem digitsNat_no_digit {l : List Char}
    (h : ∀ c ∈ l, isDigitC c = false) : digitsNat l = none := by
  cases l with
  | nil => rfl
  | cons c r =>
      unfold digitsNat
      rw [if_neg]
      simp [List.all_cons, h c (by simp)]

theorem pyInt_no_digit {l : List Char}
    (h : ∀ c ∈ l, isDigitC c = false) : pyInt l = none := by
  have hr : ∀ x ∈ l.tail, isDigitC x = false := fun x hx => h x (List.mem_of_mem_tail hx)
  unfold pyInt
  by_cases hp : l.head? = some '+'
  · rw [if_pos hp, digitsNat_no_digit hr]
    rfl
  · rw [if_neg hp]
    by_cases hm : l.head? = some '-'
    · rw [if_pos hm, digitsNat_no_digit hr]
      rfl
    · rw [if_neg hm, digitsNat_no_digit h]
      rfl

theorem normalize_no_digit {l : List Char}
    (h : ∀ c ∈ l, isDigitC c = false) : ∀ c ∈ normalize l, isDigitC c = false := by
  intro c hc
  obtain ⟨b, hb, rfl⟩ := mem_of_mem_normalize hc
  by_contra hcon
  rw [Bool.not_eq_false] at hcon
  have := isDigitC_of_upperC hcon
  rw [h b hb] at this
  exact Bool.false_ne_true this

theorem parse_count_no_digit {l : List Char}
    (h : ∀ c ∈ l, isDigitC c = false) : parse_count l = none := by
  by_cases hemp : l.isEmpty
  · unfold parse_count
    rw [if_pos hemp]
  · have ht := normalize_no_digit h
    have hfil : ∀ (u : Char), ∀ c ∈ (normalize l).filter (fun c => c != u), isDigitC c = false :=
      fun u c hc => ht c (List.mem_of_mem_filter hc)
    unfold parse_count
    rw [if_neg hemp]
    by_cases hK : hasChar (normalize l) 'K'
    · simp only [hK, if_true]
      rw [pyFloat_no_digit (hfil 'K')]
      rfl
    · simp only [hK, Bool.false_eq_true, if_false]
      by_cases hM : hasChar (normalize l) 'M'
      · simp only [hM, if_true]
        rw [pyFloat_no_digit (hfil 'M')]
        rfl
      · simp only [hM, Bool.false_eq_true, if_false]
        by_cases hB : hasChar (normalize l) 'B'
        · simp only [hB, if_true]
          rw [pyFloat_no_digit (hfil 'B')]
          rfl
        · simp only [hB, Bool.false_eq_true, if_false]
          exact pyInt_no_digit ht

theorem clean_not_ws {c : Char} (h : cleanNumChar c) : isWhitespaceC c = false := by
  rcases h with h | rfl | rfl | rfl
  · exact not_ws_of_digit h
  · decide
  · decide
  · decide

theorem clean_not_lower {c : Char} (h : cleanNumChar c) : isLowerC c = false := by
  rcases h with h | rfl | rfl | rfl
  · exact isLowerC_false_of_digit h
  · decide
  · decide
  · decide

theorem clean_keep {c : Char} (h : cleanNumChar c) : (c != ',' && c != ' ') = true := by
  rcases h with h | rfl | rfl | rfl
  · exact digit_keep h
  · decide
  · decide
  · decide

theorem clean_ne_unit {c : Char} (h : cleanNumChar c) : c ≠ 'K' ∧ c ≠ 'M' ∧ c ≠ 'B' := by
  rcases h with h | rfl | rfl | rfl
  · exact ⟨digit_ne h (Or.inr (by decide)), digit_ne h (Or.inr (by decide)),
      digit_ne h (Or.inr (by decide))⟩
  · exact ⟨by decide, by decide, by decide⟩
  · exact ⟨by decide, by decide, by decide⟩
  · exact ⟨by decide, by decide, by decide⟩

theorem normalize_append_unit {p : List Char} (hp : ∀ c ∈ p, cleanNumChar c) {u : Char}
    (hws : isWhitespaceC u = false) (hlo : isLowerC u = false)
    (hkeep : (u != ',' && u != ' ') = true) :
    normalize (p ++ [u]) = p ++ [u] := by
  have hmem : ∀ c ∈ p ++ [u], c ∈ p ∨ c = u := by
    intro c hc
    rcases List.mem_append.mp hc with h | h
    · exact Or.inl h
    · right
      simpa using h
  rw [normalize_of_plain, List.filter_eq_self.mpr]
  · intro a ha
    rcases hmem a ha with h | rfl
    · exact clean_keep (hp a h)
    · exact hkeep
  · intro c hc
    rcases hmem c hc with h | rfl
    · exact clean_not_ws (hp c h)
    · exact hws
  · intro c hc
    rcases hmem c hc with h | rfl
    · exact clean_not_lower (hp c h)
    · exact hlo

theorem filter_append_unit {p : List Char} {u : Char} :
    (p ++ [u]).filter (fun c => c != u) = p.filter (fun c => c != u) := by
  rw [List.filter_append, List.filter_cons, if_neg (by simp)]
  simp

theorem filter_unit_eq_self {p : List Char} {u : Char}
    (hu : ∀ c ∈ p, c ≠ u) : p.filter (fun c => c != u) = p :=
  List.filter_eq_self.mpr (fun a ha => by simp [hu a ha])

theorem hasChar_append_unit {p : List Char} {u : Char} : hasChar (p ++ [u]) u = true := by
  rw [hasChar_iff]
  simp

theorem hasChar_append_other {p : List Char} {u a : Char}
    (hp : ∀ c ∈ p, c ≠ a) (hu : u ≠ a) : hasChar (p ++ [u]) a = false := by
  apply hasChar_eq_false
  intro c hc
  rcases List.mem_append.mp hc with h | h
  · exact hp c h
  · rw [List.mem_singleton] at h
    subst h
    exact hu

/-- `parse_count` on a clean numeric prefix followed by a trailing `K`. -/
theorem parse_count_K {p : List Char} (hp : ∀ c ∈ p, cleanNumChar c) :
    parse_count (p ++ ['K'])
      = (pyFloat p).map (fun q => pyTrunc (Rat.divInt (q.1 * 1000) (10 ^ q.2))) := by
  have hnorm : normalize (p ++ ['K']) = p ++ ['K'] :=
    normalize_append_unit hp (by decide) (by decide) (by decide)
  unfold parse_count
  rw [if_neg (by simp)]
  simp only [hnorm, hasChar_append_unit, if_true]
  rw [filter_append_unit,
    filter_unit_eq_self (fun c hc => (clean_ne_unit (hp c hc)).1)]

/-- `parse_count` on a clean numeric prefix followed by a trailing `M`. -/
theorem parse_count_M {p : List Char} (hp : ∀ c ∈ p, cleanNumChar c) :
    parse_count (p ++ ['M'])
      = (pyFloat p).map (fun q => pyTrunc (Rat.divInt (q.1 * 1000000) (10 ^ q.2))) := by
  have hnorm : normalize (p ++ ['M']) = p ++ ['M'] :=
    normalize_append_unit hp (by decide) (by decide) (by decide)
  have hnoK : hasChar (p ++ ['M']) 'K' = false :=
    hasChar_append_other (fun c hc => (clean_ne_unit (hp c hc)).1) (by decide)
  unfold parse_count
  rw [if_neg (by simp)]
  simp only [hnorm, hnoK, Bool.false_eq_true, if_false, hasChar_append_unit, if_true]
  rw [filter_append_unit,
    filter_unit_eq_self (fun c hc => (clean_ne_unit (hp c hc)).2.1)]

/-- `parse_count` on a clean numeric prefix followed by a trailing `B`. -/
theorem parse_count_B {p : List Char} (hp : ∀ c ∈ p, cleanNumChar c) :
    parse_count (p ++ ['B'])
      = (pyFloat p).map (fun q => pyTrunc (Rat.divInt (q.1 * 1000000000) (10 ^ q.2))) := by
  have hnorm : normalize (p ++ ['B']) = p ++ ['B'] :=
    normalize_append_unit hp (by decide) (by decide) (by decide)
  have hnoK : hasChar (p ++ ['B']) 'K' = false :=
    hasChar_append_other (fun c hc => (clean_ne_unit (hp c hc)).1) (by decide)
  have hnoM : hasChar (p ++ ['B']) 'M' = false :=
    hasChar_append_other (fun c hc => (clean_ne_unit (hp c hc)).2.1) (by decide)
  unfold parse_count
  rw [if_neg (by simp)]
  simp only [hnorm, hnoK, hnoM, Bool.false_eq_true, if_false, hasChar_append_unit, if_true]
  rw [filter_append_unit,
    filter_unit_eq_self (fun c hc => (clean_ne_unit (hp c hc)).2.2)]

/-- Scaling the exact decimal value commutes with `Rat.divInt`. -/
theorem divInt_scale (m : ℤ) (d : ℕ) (s : ℤ) :
    Rat.divInt (m * s) (10 ^ d) = decVal m d * (s : ℚ) := by
  unfold decVal
  rw [Rat.intCast_eq_divInt, Rat.divInt_mul_divInt', mul_one]

/-! ## Claim C1 and C9 -/

/-- C1: `parse_count` maps a string with a trailing unit letter `K`/`M`/`B`
to its numeric prefix's floating-point value multiplied by 10^3 / 10^6 /
10^9 and truncated to an integer; a comma-grouped digit string parses as
that integer; parsing fails on the empty string, on digit-free text, and
when the numeric prefix is not a valid number; concretely
`parse("12.5K") = 12500`, `parse("3M") = 3000000`, `parse("1,234") = 1234`,
`parse("")` and `parse("abc")` fail. -/
theorem parse_count_spec :
    parse_count ("".data) = none ∧
    parse_count ("12.5K".data) = some 12500 ∧
    parse_count ("3M".data) = some 3000000 ∧
    parse_count ("1,234".data) = some 1234 ∧
    parse_count ("abc".data) = none ∧
    (∀ l : List Char, (∀ c ∈ l, isDigitC c = false) → parse_count l = none) ∧
    (∀ n : ℕ, parse_count (commaNat n) = some (n : ℤ)) ∧
    (∀ (p : List Char) (m : ℤ) (d : ℕ), (∀ c ∈ p, cleanNumChar c) →
      pyFloat p = some (m, d) →
        parse_count (p ++ ['K']) = some (pyTrunc (decVal m d * 1000)) ∧
        parse_count (p ++ ['M']) = some (pyTrunc (decVal m d * 1000000)) ∧
        parse_count (p ++ ['B']) = some (pyTrunc (decVal m d * 1000000000))) ∧
    (∀ p : List Char, (∀ c ∈ p, cleanNumChar c) → pyFloat p = none →
      parse_count (p ++ ['K']) = none ∧ parse_count (p ++ ['M']) = none ∧
        parse_count (p ++ ['B']) = none) := by
  refine ⟨by decide, by decide, by decide, by decide, by decide,
    fun l h => parse_count_no_digit h, parse_count_commaNat, ?_, ?_⟩
  · intro p m d hp hq
    have h1000 : ((1000 : ℤ) : ℚ) = (1000 : ℚ) := by norm_num
    have h1000000 : ((1000000 : ℤ) : ℚ) = (1000000 : ℚ) := by norm_num
    have h1000000000 : ((1000000000 : ℤ) : ℚ) = (1000000000 : ℚ) := by norm_num
    refine ⟨?_, ?_, ?_⟩
    · rw [parse_count_K hp, hq]
      have : Option.map (fun q : ℤ × ℕ => pyTrunc (Rat.divInt (q.1 * 1000) (10 ^ q.2)))
          (some (m, d)) = some (pyTrunc (Rat.divInt (m * 1000) (10 ^ d))) := rfl
      rw [this, divInt_scale, h1000]
    · rw [parse_count_M hp, hq]
      have : Option.map (fun q : ℤ × ℕ => pyTrunc (Rat.divInt (q.1 * 1000000) (10 ^ q.2)))
          (some (m, d)) = some (pyTrunc (Rat.divInt (m * 1000000) (10 ^ d))) := rfl
      rw [this, divInt_scale, h1000000]
    · rw [parse_count_B hp, hq]
      have : Option.map (fun q : ℤ × ℕ => pyTrunc (Rat.divInt (q.1 * 1000000000) (10 ^ q.2)))
          (some (m, d)) = some (pyTrunc (Rat.divInt (m * 1000000000) (10 ^ d))) := rfl
      rw [this, divInt_scale, h1000000000]
  · intro p hp hq
    refine ⟨?_, ?_, ?_⟩
    · rw [parse_count_K hp, hq]
      rfl
    · rw [parse_count_M hp, hq]
      rfl
    · rw [parse_count_B hp, hq]
      rfl

/-- Witness for C1 at the concrete prefix `7.2` with unit `K`. -/
theorem parse_count_spec_witness :
    (∀ c ∈ "7.2".data, cleanNumChar c) ∧ pyFloat "7.2".data = some (72, 1) ∧
      parse_count ("7.2".data ++ ['K']) = some (pyTrunc (decVal 72 1 * 1000)) :=
  ⟨by decide, by decide,
    (parse_count_spec.2.2.2.2.2.2.2.1 "7.2".data 72 1 (by decide) (by decide)).1⟩

/-- C9: rendering a non-negative integer as comma-grouped thousands text and
parsing it back with `parse_count` yields the integer again. -/
theorem parse_format_roundtrip : ∀ n : ℕ, parse_count (commaNat n) = some (n : ℤ) :=
  parse_count_commaNat

/-! ## Claim C2 -/

theorem findClosest_aux (target : ℤ) : ∀ (l : List Record) (b : Record),
    ∃ (r : Record) (l1 l2 : List Record),
      findClosest target (b :: l) = some r ∧
      b :: l = l1 ++ r :: l2 ∧
      |r.timestamp - target| ≤ |b.timestamp - target| ∧
      (∀ x ∈ l1, |r.timestamp - target| < |x.timestamp - target|) ∧
      (∀ x ∈ l2, |r.timestamp - target| ≤ |x.timestamp - target|) := by
  intro l
  induction l with
  | nil =>
      intro b
      exact ⟨b, [], [], rfl, rfl, le_refl _, by simp, by simp⟩
  | cons x l ih =>
      intro b
      have key : findClosest target (b :: x :: l)
          = findClosest target
              ((if |x.timestamp - target| < |b.timestamp - target| then x else b) :: l) := by
        unfold findClosest
        simp only [List.foldl_cons]
        by_cases hx : |x.timestamp - target| < |b.timestamp - target|
        · simp [hx]
        · simp [hx]
      by_cases hx : |x.timestamp - target| < |b.timestamp - target|
      · rw [if_pos hx] at key
        obtain ⟨r, l1, l2, h1, h2, hb, h3, h4⟩ := ih x
        refine ⟨r, b :: l1, l2, key.trans h1, by rw [h2]; rfl, le_of_lt (lt_of_le_of_lt hb hx),
          ?_, h4⟩
        intro y hy
        simp only [List.mem_cons] at hy
        rcases hy with rfl | hy
        · exact lt_of_le_of_lt hb hx
        · exact h3 y hy
      · rw [if_neg hx] at key
        push_neg at hx
        obtain ⟨r, l1, l2, h1, h2, hb, h3, h4⟩ := ih b
        cases l1 with
        | nil =>
            simp only [List.nil_append, List.cons.injEq] at h2
            obtain ⟨rfl, rfl⟩ := h2
            refine ⟨b, [], x :: l, key.trans h1, by simp, hb, by simp, ?_⟩
            intro y hy
            simp only [List.mem_cons] at hy
            rcases hy with rfl | hy
            · exact le_trans hb hx
            · exact h4 y hy
        | cons z l1' =>
            simp only [List.cons_append, List.cons.injEq] at h2
            obtain ⟨rfl, hl⟩ := h2
            have hzstrict : |r.timestamp - target| < |b.timestamp - target| :=
              h3 b (by simp)
            refine ⟨r, b :: x :: l1', l2, key.trans h1, by rw [hl]; rfl, le_of_lt hzstrict,
              ?_, h4⟩
            intro y hy
            simp only [List.mem_cons] at hy
            rcases hy with rfl | rfl | hy
            · exact hzstrict
            · exact lt_of_lt_of_le hzstrict hx
            · exact h3 y (by simp [hy])

theorem findClosest_spec (target : ℤ) {history : List Record} (h : history ≠ []) :
    ∃ (r : Record) (l1 l2 : List Record),
      findClosest target history = some r ∧
      history = l1 ++ r :: l2 ∧
      (∀ x ∈ l1, |r.timestamp - target| < |x.timestamp - target|) ∧
      (∀ x ∈ l2, |r.timestamp - target| ≤ |x.timestamp - target|) := by
  cases history with
  | nil => exact absurd rfl h
  | cons b l =>
      obtain ⟨r, l1, l2, h1, h2, _, h3, h4⟩ := findClosest_aux target l b
      exact ⟨r, l1, l2, h1, h2, h3, h4⟩

/-- C2: `calculate_change` returns the `None` triple iff the series is
empty; on a non-empty series it selects the record minimizing the absolute
distance of its timestamp to `now - 24h` (earliest record on ties) and
returns `(current - selected.followers_count, (now - selected.timestamp)
in hours, selected.followers_count)`; with series
`[(t-48h, 100), (t-23h, 150)]` and `current = 160` at time `t` it selects
the `t-23h` sample and returns delta `10` after `23` hours from a previous
count of `150`. -/
theorem calculate_change_spec :
    (∀ (cur now : ℤ) (h : List Record), calculate_change cur h now = none ↔ h = []) ∧
    (∀ (cur now : ℤ) (h : List Record), h ≠ [] →
      ∃ (r : Record) (l1 l2 : List Record),
        h = l1 ++ r :: l2 ∧
        (∀ x ∈ h, |r.timestamp - (now - 86400)| ≤ |x.timestamp - (now - 86400)|) ∧
        (∀ x ∈ l1, |r.timestamp - (now - 86400)| < |x.timestamp - (now - 86400)|) ∧
        (∀ x ∈ l2, |r.timestamp - (now - 86400)| ≤ |x.timestamp - (now - 86400)|) ∧
        calculate_change cur h now
          = some (cur - r.followers_count, ((now - r.timestamp : ℤ) : ℚ) / 3600,
              r.followers_count)) ∧
    (∀ t : ℤ, calculate_change 160 [⟨t - 172800, 100⟩, ⟨t - 82800, 150⟩] t
        = some (10, 23, 150)) := by
  refine ⟨?_, ?_, ?_⟩
  · intro cur now h
    constructor
    · intro hc
      by_contra hne
      obtain ⟨r, l1, l2, h1, _, _, _⟩ := findClosest_spec (now - 86400) hne
      unfold calculate_change at hc
      rw [if_neg (by simpa [List.isEmpty_iff] using hne), h1] at hc
      exact Option.some_ne_none _ hc
    · intro hc
      subst hc
      rfl
  · intro cur now h hne
    obtain ⟨r, l1, l2, h1, h2, h3, h4⟩ := findClosest_spec (now - 86400) hne
    have hdiv : Rat.divInt (now - r.timestamp) 3600 = ((now - r.timestamp : ℤ) : ℚ) / 3600 := by
      rw [Rat.divInt_eq_div]
      norm_num
    refine ⟨r, l1, l2, h2, ?_, h3, h4, ?_⟩
    · intro x hx
      rw [h2] at hx
      rcases List.mem_append.mp hx with hh | hh
      · exact le_of_lt (h3 x hh)
      · simp only [List.mem_cons] at hh
        rcases hh with rfl | hh
        · exact le_refl _
        · exact h4 x hh
    · have hval : calculate_change cur h now
          = some (cur - r.followers_count, Rat.divInt (now - r.timestamp) 3600,
              r.followers_count) := by
        unfold calculate_change
        rw [if_neg (by simpa [List.isEmpty_iff] using hne), h1]
      rw [hval, hdiv]
  · intro t
    have e1 : t - 172800 - (t - 86400) = -86400 := by ring
    have e2 : t - 82800 - (t - 86400) = 3600 := by ring
    have e3 : t - (t - 82800) = 82800 := by ring
    unfold calculate_change findClosest
    simp only [List.isEmpty_cons, List.foldl_cons, List.foldl_nil, Bool.false_eq_true,
      if_false, e1, e2]
    rw [if_pos (by decide)]
    simp only [e3]
    rw [show Rat.divInt 82800 3600 = (23 : ℚ) from by decide]
    norm_num

/-- Witness for C2 on a concrete two-sample series. -/
theorem calculate_change_spec_witness :
    ∃ (r : Record) (l1 l2 : List Record),
      ([⟨-172800, 100⟩, ⟨-82800, 150⟩] : List Record) = l1 ++ r :: l2 ∧
      (∀ x ∈ ([⟨-172800, 100⟩, ⟨-82800, 150⟩] : List Record),
        |r.timestamp - (0 - 86400)| ≤ |x.timestamp - (0 - 86400)|) ∧
      (∀ x ∈ l1, |r.timestamp - (0 - 86400)| < |x.timestamp - (0 - 86400)|) ∧
      (∀ x ∈ l2, |r.timestamp - (0 - 86400)| ≤ |x.timestamp - (0 - 86400)|) ∧
      calculate_change 160 [⟨-172800, 100⟩, ⟨-82800, 150⟩] 0
        = some (160 - r.followers_count, ((0 - r.timestamp : ℤ) : ℚ) / 3600,
            r.followers_count) :=
  calculate_change_spec.2.1 160 0 _ (by simp)

/-! ## Claim C3 -/

/-- Full characterization of the acquisition loop: either no outcome is
truthy and every adapter is invoked with result `none`, or the list splits
at the first truthy outcome, which is returned after invoking exactly the
adapters up to and including it. -/
theorem acquire_trace_cases : ∀ outcomes : List (Option ℤ),
    ((∀ o ∈ outcomes, ∀ c : ℤ, o = some c → c = 0) ∧
      acquire_trace outcomes = (none, outcomes.length)) ∨
    (∃ (l1 : List (Option ℤ)) (c : ℤ) (l2 : List (Option ℤ)),
      outcomes = l1 ++ some c :: l2 ∧ c ≠ 0 ∧
      (∀ o ∈ l1, ∀ b : ℤ, o = some b → b = 0) ∧
      acquire_trace outcomes = (some c, l1.length + 1)) := by
  intro outcomes
  induction outcomes with
  | nil => exact Or.inl ⟨by simp, rfl⟩
  | cons o rest ih =>
      rcases o with _ | c
      · have hred : acquire_trace (none :: rest)
            = ((acquire_trace rest).1, (acquire_trace rest).2 + 1) := rfl
        rcases ih with ⟨h1, h2⟩ | ⟨l1, c, l2, h1, h2, h3, h4⟩
        · refine Or.inl ⟨?_, ?_⟩
          · intro x hx b hb
            rcases List.mem_cons.mp hx with rfl | hx
            · cases hb
            · exact h1 x hx b hb
          · rw [hred, h2]
            rfl
        · refine Or.inr ⟨none :: l1, c, l2, by rw [h1]; rfl, h2, ?_, ?_⟩
          · intro x hx b hb
            rcases List.mem_cons.mp hx with rfl | hx
            · cases hb
            · exact h3 x hx b hb
          · rw [hred, h4]
            rfl
      · by_cases hc : c = 0
        · subst hc
          have hred : acquire_trace (some 0 :: rest)
              = ((acquire_trace rest).1, (acquire_trace rest).2 + 1) := rfl
          rcases ih with ⟨h1, h2⟩ | ⟨l1, b, l2, h1, h2, h3, h4⟩
          · refine Or.inl ⟨?_, ?_⟩
            · intro x hx b hb
              rcases List.mem_cons.mp hx with rfl | hx
              · exact (Option.some.inj hb).symm
              · exact h1 x hx b hb
            · rw [hred, h2]
              rfl
          · refine Or.inr ⟨some 0 :: l1, b, l2, by rw [h1]; rfl, h2, ?_, ?_⟩
            · intro x hx b' hb
              rcases List.mem_cons.mp hx with rfl | hx
              · exact (Option.some.inj hb).symm
              · exact h3 x hx b' hb
            · rw [hred, h4]
              rfl
        · have hred : acquire_trace (some c :: rest) = (some c, 1) := by
            show (if c ≠ 0 then (some c, 1)
              else ((acquire_trace rest).1, (acquire_trace rest).2 + 1)) = (some c, 1)
            rw [if_pos hc]
          exact Or.inr ⟨[], c, rest, rfl, hc, by simp, by rw [hred]; rfl⟩

/-- C3 counterexample: the first (and only) adapter outcome `some 0` is
non-none, yet the loop skips it — Python truthiness treats a zero count as
a miss — so `get_follower_count` does not return the first non-none
result. -/
theorem acquirer_zero_counterexample :
    List.findSome? (fun o => o) [some (0 : ℤ)] = some 0 ∧
    (acquire_trace [some (0 : ℤ)]).1 = none ∧
    (acquire_trace [some (0 : ℤ)]).1 ≠ List.findSome? (fun o => o) [some (0 : ℤ)] := by
  refine ⟨by decide, by decide, by decide⟩

/-- C3 (amended): the Acquirer invokes the adapters in listed order and
returns the result of the first adapter whose outcome is non-none and
nonzero, having invoked only the adapters up to and including it; it
returns none exactly when every adapter returned none or zero (a nonzero
outcome can never be skipped, and the actual adapters never return zero).
`get_follower_count` is this loop over the Nitter instances in list order
followed by Social Blade. -/
theorem acquire_trace_spec :
    (∀ outcomes : List (Option ℤ),
      ((∀ o ∈ outcomes, ∀ c : ℤ, o = some c → c = 0) ∧
        acquire_trace outcomes = (none, outcomes.length)) ∨
      (∃ (l1 : List (Option ℤ)) (c : ℤ) (l2 : List (Option ℤ)),
        outcomes = l1 ++ some c :: l2 ∧ c ≠ 0 ∧
        (∀ o ∈ l1, ∀ b : ℤ, o = some b → b = 0) ∧
        acquire_trace outcomes = (some c, l1.length + 1))) ∧
    (∀ (nitters : List (Option NitterDoc)) (sb : Option SBDoc),
      get_follower_count nitters sb
        = (acquire_trace ((nitters.map try_nitter_instance) ++ [try_social_blade sb])).1) :=
  ⟨acquire_trace_cases, fun _ _ => rfl⟩

/-! ## Claim C5 -/

/-- C5 counterexample: a sample whose timestamp is exactly 30 days before
`now` is removed by `prune`, not kept. -/
theorem prune_boundary_counterexample :
    (⟨2592000 - 2592000, 100⟩ : Record) ∉ prune [⟨2592000 - 2592000, 100⟩] 2592000 := by
  decide

/-- C5 (amended): `prune` keeps exactly the samples whose timestamp is
strictly later than `now` minus 30 days — so a sample exactly 30 days old
is removed along with the older ones — and preserves the relative order of
the kept samples. -/
theorem prune_spec :
    (∀ (h : List Record) (now : ℤ) (r : Record),
      r ∈ prune h now ↔ r ∈ h ∧ now - 2592000 < r.timestamp) ∧
    (∀ (h : List Record) (now : ℤ), (prune h now).Sublist h) ∧
    (∀ now : ℤ, prune [⟨now - 2592000, 100⟩] now = []) := by
  refine ⟨?_, ?_, ?_⟩
  · intro h now r
    simp [prune, List.mem_filter]
  · intro h now
    exact List.filter_sublist _
  · intro now
    simp [prune, List.filter]

/-! ## Adapter lemmas -/

theorem findSome?_eq_head?_filterMap {α β : Type} (f : α → Option β) :
    ∀ l : List α, l.findSome? f = (l.filterMap f).head? := by
  intro l
  induction l with
  | nil => rfl
  | cons a l ih =>
      rcases hfa : f a with _ | b
      · rw [List.findSome?_cons, hfa, List.filterMap_cons_none hfa, ih]
      · rw [List.findSome?_cons, hfa, List.filterMap_cons_some hfa]
        rfl

theorem exists_of_findSome?_some {α β : Type} {f : α → Option β} :
    ∀ {l : List α} {b : β}, l.findSome? f = some b → ∃ a ∈ l, f a = some b := by
  intro l
  induction l with
  | nil => intro b h; cases h
  | cons a l ih =>
      intro b h
      rw [List.findSome?_cons] at h
      rcases hfa : f a with _ | c
      · rw [hfa] at h
        obtain ⟨x, hx, hfx⟩ := ih h
        exact ⟨x, by simp [hx], hfx⟩
      · rw [hfa] at h
        exact ⟨a, by simp, hfa.trans h⟩

theorem nitter_check_gt {c : ℤ} (h : nitter_check c = true) : 1000 < c := by
  simp only [nitter_check, Bool.and_eq_true, bne_iff_ne, decide_eq_true_eq] at h
  exact h.2

theorem nitter_stat_candidate_bound {s : NitterStat} {c : ℤ}
    (h : nitter_stat_candidate s = some c) : 1000 < c := by
  unfold nitter_stat_candidate at h
  split at h
  · split at h
    · next heq hc =>
        obtain rfl := Option.some.inj h
        exact nitter_check_gt (Bool.and_elim_left hc)
    · cases h
  · cases h

theorem nitter_text_candidate_bound {t : List Char} {c : ℤ}
    (h : nitter_text_candidate t = some c) : 1000 < c := by
  unfold nitter_text_candidate at h
  split at h
  · cases h
  · split at h
    · split at h
      · next hc =>
          obtain rfl := Option.some.inj h
          exact nitter_check_gt hc
      · cases h
    · cases h

theorem nitter_div_candidate_bound {d : NitterDiv} {c : ℤ}
    (h : nitter_div_candidate d = some c) : 1000 < c := by
  unfold nitter_div_candidate at h
  split at h
  · split at h
    · split at h
      · split at h
        · next hc =>
            obtain rfl := Option.some.inj h
            exact nitter_check_gt hc
        · cases h
      · cases h
    · cases h
  · cases h

theorem try_nitter_instance_bound {r : Option NitterDoc} {c : ℤ}
    (h : try_nitter_instance r = some c) : 1000 < c := by
  rcases r with _ | d
  · exact Option.noConfusion h
  · simp only [try_nitter_instance] at h
    split at h
    · exact Option.noConfusion h
    · split at h
      · next c0 heq =>
          obtain rfl := Option.some.inj h
          split at heq
          · obtain ⟨s, _, hs⟩ := exists_of_findSome?_some heq
            exact nitter_stat_candidate_bound hs
          · exact Option.noConfusion heq
      · split at h
        · next c0 heq =>
            obtain rfl := Option.some.inj h
            obtain ⟨t, _, ht⟩ := exists_of_findSome?_some heq
            exact nitter_text_candidate_bound ht
        · obtain ⟨dv, _, hdv⟩ := exists_of_findSome?_some h
          exact nitter_div_candidate_bound hdv

theorem sb_candidate_bound {t : List Char} {c : ℤ}
    (h : sb_candidate t = some c) : 1000 ≤ c ∧ c ≤ 500000000 := by
  unfold sb_candidate at h
  split at h
  · split at h
    · next hp =>
        obtain rfl := Option.some.inj h
        simp only [sb_range_ok, Bool.and_eq_true, decide_eq_true_eq] at hp
        simp only [Int.ofNat_eq_natCast]
        omega
    · exact Option.noConfusion h
  · exact Option.noConfusion h

theorem sb_candidates_bound {d : SBDoc} {c : ℤ}
    (h : c ∈ sb_candidates d) : 1000 ≤ c ∧ c ≤ 500000000 := by
  unfold sb_candidates at h
  rcases List.mem_append.mp h with hm | hm
  · obtain ⟨t, _, ht⟩ := List.mem_filterMap.mp hm
    exact sb_candidate_bound ht
  · obtain ⟨t, _, ht⟩ := List.mem_filterMap.mp hm
    exact sb_candidate_bound ht

theorem foldl_max_mem : ∀ (xs : List ℤ) (x : ℤ), xs.foldl max x ∈ x :: xs := by
  intro xs
  induction xs with
  | nil => intro x; simp
  | cons y ys ih =>
      intro x
      rw [List.foldl_cons]
      rcases List.mem_cons.mp (ih (max x y)) with hm | hm
      · rw [hm]
        rcases max_choice x y with hxy | hxy <;> rw [hxy] <;> simp
      · simp [hm]

theorem foldl_max_ub : ∀ (xs : List ℤ) (x : ℤ), ∀ y ∈ x :: xs, y ≤ xs.foldl max x := by
  intro xs
  induction xs with
  | nil =>
      intro x y hy
      simp only [List.mem_singleton] at hy
      subst hy
      exact le_refl _
  | cons z zs ih =>
      intro x y hy
      rw [List.foldl_cons]
      rcases List.mem_cons.mp hy with rfl | hy
      · exact le_trans (le_max_left y z) (ih (max y z) _ (by simp))
      · rcases List.mem_cons.mp hy with rfl | hy
        · exact le_trans (le_max_right x y) (ih (max x y) _ (by simp))
        · exact ih (max x z) y (by simp [hy])

theorem try_social_blade_eq_max {d : SBDoc} {x : ℤ} {xs : List ℤ}
    (h200 : d.status = 200) (hc : sb_candidates d = x :: xs) :
    try_social_blade (some d) = some (xs.foldl max x) := by
  simp only [try_social_blade]
  rw [if_neg (by simp [h200]), hc]

theorem try_social_blade_bound {r : Option SBDoc} {c : ℤ}
    (h : try_social_blade r = some c) : 1000 ≤ c ∧ c ≤ 500000000 := by
  rcases r with _ | d
  · exact Option.noConfusion h
  · simp only [try_social_blade] at h
    split at h
    · exact Option.noConfusion h
    · split at h
      · exact Option.noConfusion h
      · next x xs hc =>
          obtain rfl := Option.some.inj h
          exact sb_candidates_bound (by rw [hc]; exact foldl_max_mem xs x)

theorem acquire_trace_mem : ∀ {outcomes : List (Option ℤ)} {c : ℤ},
    (acquire_trace outcomes).1 = some c → some c ∈ outcomes := by
  intro outcomes
  induction outcomes with
  | nil => intro c h; cases h
  | cons o rest ih =>
      intro c h
      rcases o with _ | b
      · have hred : acquire_trace (none :: rest)
            = ((acquire_trace rest).1, (acquire_trace rest).2 + 1) := rfl
        rw [hred] at h
        exact List.mem_cons_of_mem _ (ih h)
      · by_cases hb : b = 0
        · subst hb
          have hred : acquire_trace (some 0 :: rest)
              = ((acquire_trace rest).1, (acquire_trace rest).2 + 1) := rfl
          rw [hred] at h
          exact List.mem_cons_of_mem _ (ih h)
        · have hred : acquire_trace (some b :: rest) = (some b, 1) := by
            show (if b ≠ 0 then (some b, 1)
              else ((acquire_trace rest).1, (acquire_trace rest).2 + 1)) = (some b, 1)
            rw [if_pos hb]
          rw [hred] at h
          obtain rfl := Option.some.inj h
          simp

/-- The composite lower bound behind C7 and C10. -/
theorem get_follower_count_ge {nitters : List (Option NitterDoc)} {sb : Option SBDoc} {c : ℤ}
    (h : get_follower_count nitters sb = some c) : 1000 ≤ c := by
  unfold get_follower_count at h
  have hm := acquire_trace_mem h
  rcases List.mem_append.mp hm with hm | hm
  · obtain ⟨r, _, heq⟩ := List.mem_map.mp hm
    have := try_nitter_instance_bound heq
    omega
  · rw [List.mem_singleton] at hm
    exact (try_social_blade_bound hm.symm).1

/-! ## Claims C4, C8, C10 -/

/-- C4 counterexample: a Social Blade (generic-numeric) candidate of 50,000
passes the code's plausibility filter and is returned, although the claim
says candidates below 100,000 are rejected. -/
theorem social_blade_accepts_50000 :
    try_social_blade (some ⟨200, ["50,000".data], []⟩) = some 50000 ∧
    sb_range_ok 50000 = true ∧ ¬(100000 ≤ (50000 : ℕ)) := by
  refine ⟨by decide, by decide, by decide⟩

/-- C4 (amended): the generic-numeric (Social Blade) filter accepts exactly
the candidates between 1,000 and 500,000,000 — its floor is 1,000, not
100,000 — while the structural (Nitter) check accepts exactly counts
strictly above 1,000; a structural candidate of 500 parses but is
rejected, and generic candidates of 50,000 and 150,000 are both
accepted. -/
theorem plausibility_filter_spec :
    (∀ n : ℕ, sb_range_ok n = true ↔ 1000 ≤ n ∧ n ≤ 500000000) ∧
    (∀ c : ℤ, nitter_check c = true ↔ 1000 < c) ∧
    parse_count ("500".data) = some 500 ∧
    nitter_check 500 = false ∧
    try_nitter_instance (some ⟨200, [⟨"500".data, true⟩, ⟨"7".data, false⟩], [], []⟩) = none ∧
    try_social_blade (some ⟨200, ["50,000".data], []⟩) = some 50000 ∧
    try_social_blade (some ⟨200, ["150,000".data], []⟩) = some 150000 := by
  refine ⟨?_, ?_, by decide, by decide, by decide, by decide, by decide⟩
  · intro n
    simp [sb_range_ok]
  · intro c
    simp only [nitter_check, Bool.and_eq_true, bne_iff_ne, decide_eq_true_eq]
    constructor
    · rintro ⟨_, h⟩
      exact h
    · intro h
      exact ⟨by omega, h⟩

/-- C8 counterexample: with two plausible Social Blade candidates 2,000 and
5,000 (in scan order), the adapter returns 5,000 — the maximum — rather
than the first plausible candidate 2,000. -/
theorem social_blade_max_counterexample :
    try_social_blade (some ⟨200, ["2,000".data, "5,000".data], []⟩) = some 5000 ∧
    (sb_candidates ⟨200, ["2,000".data, "5,000".data], []⟩).head? = some 2000 ∧
    try_social_blade (some ⟨200, ["2,000".data, "5,000".data], []⟩)
      ≠ (sb_candidates ⟨200, ["2,000".data, "5,000".data], []⟩).head? := by
  refine ⟨by decide, by decide, by decide⟩

/-- C8 (amended): a Nitter adapter returns the first plausible candidate in
its fixed strategy order (structural stat spans, then free-text matches,
then stat divs); the Social Blade adapter instead collects all plausible
candidates and returns their maximum; every adapter returns none on a
fetch error, a non-200 status, or when no strategy yields a plausible
candidate. -/
theorem adapter_first_candidate_spec :
    (∀ d : NitterDoc, d.status = 200 →
      try_nitter_instance (some d) = (nitter_candidates d).head?) ∧
    (∀ (d : SBDoc) (c : ℤ), try_social_blade (some d) = some c →
      c ∈ sb_candidates d ∧ ∀ x ∈ sb_candidates d, x ≤ c) ∧
    (∀ d : NitterDoc, d.status ≠ 200 → try_nitter_instance (some d) = none) ∧
    (∀ d : SBDoc, d.status ≠ 200 → try_social_blade (some d) = none) ∧
    (∀ d : SBDoc, d.status = 200 → sb_candidates d = [] → try_social_blade (some d) = none) ∧
    (∀ d : NitterDoc, d.status = 200 → nitter_candidates d = [] →
      try_nitter_instance (some d) = none) ∧
    try_nitter_instance none = none ∧ try_social_blade none = none := by
  have hnit : ∀ d : NitterDoc, d.status = 200 →
      try_nitter_instance (some d) = (nitter_candidates d).head? := by
    intro d h200
    simp only [try_nitter_instance, nitter_candidates]
    rw [if_neg (by simp [h200])]
    have e1 : (if 2 ≤ d.stats.length then d.stats.findSome? nitter_stat_candidate else none)
        = (if 2 ≤ d.stats.length then d.stats.filterMap nitter_stat_candidate
            else []).head? := by
      split
      · exact findSome?_eq_head?_filterMap _ _
      · rfl
    rw [e1, findSome?_eq_head?_filterMap, findSome?_eq_head?_filterMap]
    rcases (if 2 ≤ d.stats.length then d.stats.filterMap nitter_stat_candidate else [])
      with _ | ⟨a, A⟩
    · rcases d.follower_texts.filterMap nitter_text_candidate with _ | ⟨b, B⟩
      · rfl
      · rfl
    · rfl
  refine ⟨hnit, ?_, ?_, ?_, ?_, ?_, rfl, rfl⟩
  · intro d c h
    simp only [try_social_blade] at h
    split at h
    · exact Option.noConfusion h
    · split at h
      · exact Option.noConfusion h
      · next x xs hc =>
          obtain rfl := Option.some.inj h
          constructor
          · rw [hc]
            exact foldl_max_mem xs x
          · intro y hy
            rw [hc] at hy
            exact foldl_max_ub xs x y hy
  · intro d h200
    simp only [try_nitter_instance]
    rw [if_pos h200]
  · intro d h200
    simp only [try_social_blade]
    rw [if_pos h200]
  · intro d h200 hc
    simp only [try_social_blade]
    rw [if_neg (by simp [h200]), hc]
  · intro d h200 hc
    rw [hnit d h200, hc]
    rfl

/-- Witness for C8 on a concrete Nitter document with one accepted and one
rejected stat span. -/
theorem adapter_first_candidate_spec_witness :
    try_nitter_instance
        (some ⟨200, [⟨"1.5M".data, true⟩, ⟨"42".data, false⟩], [], []⟩)
      = (nitter_candidates ⟨200, [⟨"1.5M".data, true⟩, ⟨"42".data, false⟩], [], []⟩).head? :=
  adapter_first_candidate_spec.1 _ rfl

/-- C10: a non-none result of `get_follower_count` is always at least
1,000, hence strictly positive: every adapter filters its candidates
through a lower plausibility bound before returning. -/
theorem get_follower_count_lower_bound :
    ∀ (nitters : List (Option NitterDoc)) (sb : Option SBDoc) (c : ℤ),
      get_follower_count nitters sb = some c → 1000 ≤ c ∧ 0 < c := by
  intro nitters sb c h
  have := get_follower_count_ge h
  exact ⟨this, by omega⟩

/-- Witness for C10 on a concrete Social Blade response. -/
theorem get_follower_count_lower_bound_witness :
    (1000 : ℤ) ≤ 150000 ∧ (0 : ℤ) < 150000 :=
  get_follower_count_lower_bound [] (some ⟨200, ["150,000".data], []⟩) 150000 (by decide)

/-! ## Claim C6 -/

theorem listStarts_append : ∀ (t b : List Char), listStarts t (t ++ b) = true := by
  intro t
  induction t with
  | nil => intro b; rfl
  | cons c r ih =>
      intro b
      simp [List.cons_append, listStarts, ih]

theorem listHas_of_starts : ∀ {t l : List Char}, listStarts t l = true → listHas t l = true := by
  intro t l h
  cases l with
  | nil =>
      cases t with
      | nil => rfl
      | cons c r => exact absurd h (by simp [listStarts])
  | cons c cs =>
      simp only [listHas, h, Bool.true_or]

theorem listHas_append : ∀ (a t b : List Char), listHas t (a ++ t ++ b) = true := by
  intro a
  induction a with
  | nil =>
      intro t b
      simp only [List.nil_append]
      exact listHas_of_starts (listStarts_append t b)
  | cons c a' ih =>
      intro t b
      have hg : listHas t ((c :: a') ++ t ++ b)
          = (listStarts t ((c :: a') ++ t ++ b) || listHas t (a' ++ t ++ b)) := rfl
      rw [hg, ih t b]
      simp

/-- Any string of the shape `x ++ t ++ y` (at the character-data level)
contains `t`. -/
theorem hasSub_parts (s x t y : String) (h : s.data = x.data ++ t.data ++ y.data) :
    hasSub s t = true := by
  unfold hasSub
  rw [h]
  exact listHas_append x.data t.data y.data

set_option maxRecDepth 4000 in
/-- C6 counterexample: with a 300-character handle the full rendering
exceeds 280, the short template is substituted without a further length
check, and the resulting message still exceeds 280 characters. -/
theorem format_tweet_overflow_counterexample :
    280 < (format_tweet (String.mk (List.replicate 300 'a')) 200000 (some 5000)
      (Rat.divInt 118 5) 195000).length := by
  decide

/-- C6 (amended): with a delta present the message is the full template
when that fits in 280 characters and otherwise the short template, which
is substituted without any further length check — so the length is only
bounded by `max 280 (short template length)` and an overlong handle can
exceed 280; the delta-none first-tracking message always contains the
comma-grouped current count; for the spec's example (current 200,000,
delta +5,000, elapsed 23.6h, handle `elonmusk`) the message contains
"gained", "+5,000", "200,000" and "24h" and fits in 280. -/
theorem format_tweet_spec :
    (∀ (u : String) (cur ch : ℤ) (h : ℚ) (p : ℤ),
      (format_tweet u cur (some ch) h p).length
        ≤ max 280 (format_tweet_short u cur ch).length) ∧
    (∀ (u : String) (cur ch : ℤ) (h : ℚ) (p : ℤ),
      280 < (format_tweet_full u cur ch h).length →
        format_tweet u cur (some ch) h p = format_tweet_short u cur ch) ∧
    (∀ (u : String) (cur ch : ℤ) (h : ℚ) (p : ℤ),
      (format_tweet_full u cur ch h).length ≤ 280 →
        format_tweet u cur (some ch) h p = format_tweet_full u cur ch h) ∧
    (∀ (u : String) (cur : ℤ) (h : ℚ) (p : ℤ),
      hasSub (format_tweet u cur none h p) (intComma cur) = true ∧
      hasSub (format_tweet u cur none h p) "(First tracking)" = true) ∧
    (hasSub (format_tweet ("elonmusk") 200000 (some 5000) (Rat.divInt 118 5) 195000)
        "gained" = true ∧
      hasSub (format_tweet ("elonmusk") 200000 (some 5000) (Rat.divInt 118 5) 195000)
        "+5,000" = true ∧
      hasSub (format_tweet ("elonmusk") 200000 (some 5000) (Rat.divInt 118 5) 195000)
        "200,000" = true ∧
      hasSub (format_tweet ("elonmusk") 200000 (some 5000) (Rat.divInt 118 5) 195000)
        "24h" = true ∧
      (format_tweet ("elonmusk") 200000 (some 5000) (Rat.divInt 118 5) 195000).length ≤ 280) := by
  have hdef : ∀ (u : String) (cur ch : ℤ) (h : ℚ) (p : ℤ),
      format_tweet u cur (some ch) h p
        = if 280 < (format_tweet_full u cur ch h).length then format_tweet_short u cur ch
          else format_tweet_full u cur ch h := fun _ _ _ _ _ => rfl
  refine ⟨?_, ?_, ?_, ?_, by decide, by decide, by decide, by decide, by decide⟩
  · intro u cur ch h p
    rw [hdef]
    split
    · exact le_max_of_le_right (le_refl _)
    · next hle => exact le_max_of_le_left (by omega)
  · intro u cur ch h p hgt
    rw [hdef, if_pos hgt]
  · intro u cur ch h p hle
    rw [hdef, if_neg (by omega)]
  · intro u cur h p
    have hdef0 : format_tweet u cur none h p
        = "📊 @" ++ u ++ " currently has " ++ intComma cur ++
            " followers.\n\n(First tracking)\n\n#FollowerTracker" := rfl
    constructor
    · apply hasSub_parts _ ("📊 @" ++ u ++ " currently has ") _
        (" followers.\n\n(First tracking)\n\n#FollowerTracker")
      rw [hdef0]
      simp [String.data_append, List.append_assoc]
    · apply hasSub_parts _
        ("📊 @" ++ u ++ " currently has " ++ intComma cur ++ " followers.\n\n") _
        ("\n\n#FollowerTracker")
      rw [hdef0]
      simp [String.data_append, List.append_assoc]

set_option maxRecDepth 4000 in
/-- Witness for C6: the short template is substituted for an overlong
handle. -/
theorem format_tweet_spec_witness :
    format_tweet (String.mk (List.replicate 300 'a')) 200000 (some 5000)
        (Rat.divInt 118 5) 195000
      = format_tweet_short (String.mk (List.replicate 300 'a')) 200000 5000 :=
  format_tweet_spec.2.1 _ _ _ _ _ (by decide)

/-! ## Claim C7 -/

/-- C7: `run` reports success exactly when a count was acquired and
publishing succeeded; on acquisition failure it returns false having
performed no side effects (the history store is untouched); when a count
`c` was acquired, the side-effect trace is exactly a save of the pruned
history with the new sample appended, followed by the publish attempt —
so the history (containing the new sample) is saved before publishing and
independently of the publish outcome. -/
theorem run_spec :
    (∀ (nitters : List (Option NitterDoc)) (sb : Option SBDoc) (history : List Record)
        (now : ℤ) (publish_ok : Bool) (u : String),
      (run nitters sb history now publish_ok u).1 = true
        ↔ ((get_follower_count nitters sb).isSome ∧ publish_ok = true)) ∧
    (∀ (nitters : List (Option NitterDoc)) (sb : Option SBDoc) (history : List Record)
        (now : ℤ) (publish_ok : Bool) (u : String),
      get_follower_count nitters sb = none →
        run nitters sb history now publish_ok u = (false, [])) ∧
    (∀ (nitters : List (Option NitterDoc)) (sb : Option SBDoc) (history : List Record)
        (now : ℤ) (publish_ok : Bool) (u : String) (c : ℤ),
      get_follower_count nitters sb = some c →
        ∃ msg, (run nitters sb history now publish_ok u).2
            = [RunEvent.save (prune (history ++ [⟨now, c⟩]) now), RunEvent.publish msg] ∧
          (⟨now, c⟩ : Record) ∈ prune (history ++ [⟨now, c⟩]) now ∧
          (run nitters sb history now publish_ok u).1 = publish_ok) := by
  have hnone : ∀ (nitters : List (Option NitterDoc)) (sb : Option SBDoc)
      (history : List Record) (now : ℤ) (publish_ok : Bool) (u : String),
      get_follower_count nitters sb = none →
        run nitters sb history now publish_ok u = (false, []) := by
    intro nitters sb history now publish_ok u hg
    unfold run
    simp only [hg]
  have hsome : ∀ (nitters : List (Option NitterDoc)) (sb : Option SBDoc)
      (history : List Record) (now : ℤ) (publish_ok : Bool) (u : String) (c : ℤ),
      get_follower_count nitters sb = some c →
        run nitters sb history now publish_ok u
          = (publish_ok,
              [RunEvent.save (prune (history ++ [⟨now, c⟩]) now),
                RunEvent.publish
                  (match calculate_change c history now with
                    | none => format_tweet u c none 0 0
                    | some (ch, hh, prev) => format_tweet u c (some ch) hh prev)]) := by
    intro nitters sb history now publish_ok u c hg
    have hc0 : ¬c = 0 := by
      have := get_follower_count_ge hg
      omega
    unfold run
    simp only [hg]
    rw [if_neg hc0]
  refine ⟨?_, hnone, ?_⟩
  · intro nitters sb history now publish_ok u
    rcases hg : get_follower_count nitters sb with _ | c
    · rw [hnone nitters sb history now publish_ok u hg]
      simp
    · rw [hsome nitters sb history now publish_ok u c hg]
      simp
  · intro nitters sb history now publish_ok u c hg
    rw [hsome nitters sb history now publish_ok u c hg]
    refine ⟨_, rfl, ?_, rfl⟩
    simp only [prune, List.mem_filter, decide_eq_true_eq]
    exact ⟨by simp, by omega⟩

/-- Witness for C7 on a concrete Social Blade acquisition with a failing
publish step. -/
theorem run_spec_witness :
    ∃ msg, (run [] (some ⟨200, ["150,000".data], []⟩) [] 0 false ("x")).2
        = [RunEvent.save (prune ([] ++ [⟨0, 150000⟩]) 0), RunEvent.publish msg] ∧
      (⟨0, 150000⟩ : Record) ∈ prune ([] ++ [⟨0, 150000⟩]) 0 ∧
      (run [] (some ⟨200, ["150,000".data], []⟩) [] 0 false ("x")).1 = false :=
  run_spec.2.2 [] (some ⟨200, ["150,000".data], []⟩) [] 0 false ("x") 150000 (by decide)

/-! ## Additional concrete witnesses -/

/-- Witness for C3: the acquirer composition at concrete inputs. -/
theorem acquire_trace_spec_witness :
    get_follower_count [] none
      = (acquire_trace (([] : List (Option NitterDoc)).map try_nitter_instance
          ++ [try_social_blade none])).1 :=
  acquire_trace_spec.2 [] none

/-- Witness for C4: the filter ranges at concrete candidates. -/
theorem plausibility_filter_spec_witness :
    (sb_range_ok 2000 = true ↔ 1000 ≤ 2000 ∧ 2000 ≤ 500000000) :=
  plausibility_filter_spec.1 2000

/-- Witness for C5: the retention filter at a concrete sample. -/
theorem prune_spec_witness :
    ((⟨5, 100⟩ : Record) ∈ prune [⟨5, 100⟩] 0
      ↔ (⟨5, 100⟩ : Record) ∈ [(⟨5, 100⟩ : Record)] ∧ (0 : ℤ) - 2592000 < 5) :=
  prune_spec.1 [⟨5, 100⟩] 0 ⟨5, 100⟩

/-- Witness for C9: the round trip at a concrete number. -/
theorem parse_format_roundtrip_witness :
    parse_count (commaNat 1234) = some ((1234 : ℕ) : ℤ) :=
  parse_format_roundtrip 1234

end TrackFollowers
